import Mathlib

/-!
Verification of the text pipeline of `rashifal_bot.py`.

Python strings are modelled as `List Char`. Each definition below embeds
one operation of the source file: `clean_ai_text` (lines 93-137), the
terminal-punctuation step of `generate_rashifal` (lines 301-302), the
post-API finalization of `generate_rashifal` (lines 283-311), the tweet-text
construction of `post_tweet` (lines 320-331), and the rate-limit retry loop
of `generate_rashifal` (lines 245-281).
-/

namespace Rashifal

abbrev Str := List Char

/-- Coerce a Lean string literal to the `List Char` model. -/
def strL (s : String) : Str := s.data

/-- The whitespace characters recognized by Python `str.strip()` /
`str.split()` (ASCII subset). -/
def isPySpace (c : Char) : Bool :=
  c = ' ' || c = '\t' || c = '\n' || c = '\r' || c = '\x0b' || c = '\x0c'

/-- Characterwise lowercasing, modelling Python `str.lower()` on the
ASCII letters that the keyword and phrase tables use. -/
def toLowerL (s : Str) : Str := s.map Char.toLower

/-- Python `lstrip` with character-set predicate `p`. -/
def lstripP (p : Char → Bool) (s : Str) : Str := s.dropWhile p

/-- Python `rstrip` with character-set predicate `p`. -/
def rstripP (p : Char → Bool) (s : Str) : Str := (s.reverse.dropWhile p).reverse

/-- Python `strip` with character-set predicate `p`. -/
def stripP (p : Char → Bool) (s : Str) : Str := rstripP p (lstripP p s)

/-- Python `in` on strings: is `pat` a contiguous substring of `s`? -/
def containsSub (pat : Str) (s : Str) : Bool :=
  if pat.isPrefixOf s then true
  else
    match s with
    | [] => false
    | _ :: rest => containsSub pat rest

/-- Python `str.replace(pat, rep)`: leftmost, non-overlapping, all
occurrences; `fuel` bounds the scan (each step consumes one character
or a whole match). -/
def replaceSubFuel (pat rep : Str) : Nat → Str → Str
  | 0, s => s
  | _ + 1, [] => []
  | fuel + 1, c :: rest =>
    if pat.isPrefixOf (c :: rest) && !pat.isEmpty then
      rep ++ replaceSubFuel pat rep fuel (rest.drop (pat.length - 1))
    else
      c :: replaceSubFuel pat rep fuel rest

def replaceSub (pat rep s : Str) : Str := replaceSubFuel pat rep s.length s

/-- Line 95: `text.replace('—', ',').replace('–', ',')`. -/
def dashNormalize (s : Str) : Str :=
  replaceSub (strL "–") (strL ",") (replaceSub (strL "—") (strL ",") s)

/-- Python `text.split('\n')` (line 98): split on newline, keeping
empty pieces. -/
def splitLines : Str → List Str
  | [] => [[]]
  | c :: rest =>
    match splitLines rest with
    | [] => [[]]
    | l :: ls => if c = '\n' then [] :: l :: ls else (c :: l) :: ls

/-- The instruction keywords of lines 102-106. -/
def instructionKeywords : List Str :=
  [ strL "must be", strL "should be", strL "critical", strL "mandatory",
    strL "required", strL "strict", strL "rule", strL "format:",
    strL "example:", strL "write for", strL "now write",
    strL "the horoscope:", strL "message:", strL "advice:"]

/-- Line 102: `any(keyword in line.lower() for keyword in [...])`. -/
def hasInstructionKeyword (l : Str) : Bool :=
  instructionKeywords.any (fun k => containsSub k (toLowerL l))

/-- Lines 98-112: split into lines, strip each, drop keyword lines and
empty lines, keep the first survivor; if no line survives the text is
left unchanged. -/
def selectLine (t : Str) : Str :=
  match ((splitLines t).map (stripP isPySpace)).filter
      (fun l => !hasInstructionKeyword l && !l.isEmpty) with
  | [] => t
  | l :: _ => l

/-- Alternatives of the first meta-commentary regex (line 116). -/
def pat1Alts : List Str :=
  [ strL "A sentence like", strL "Something like", strL "Could be",
    strL "For example", strL "Like this", strL "Try this", strL "How about"]

/-- Alternatives of the second meta-commentary regex (line 117). -/
def pat2Alts : List Str :=
  [ strL "So", strL "Could be", strL "For example", strL "Like this",
    strL "Something like"]

/-- Does `s` start with `a`, compared case-insensitively (regex
`re.IGNORECASE`)? -/
def ciHeadMatch (a s : Str) : Bool := (toLowerL a).isPrefixOf (toLowerL s)

/-- Regex `\w`: word character. -/
def isWordChar (c : Char) : Bool := c.isAlpha || c.isDigit || c = '_'

/-- Regex `\b` placed after a word character: the next position must be
end-of-string or a non-word character. -/
def noWordStart : Str → Bool
  | [] => true
  | c :: _ => !isWordChar c

def afterColon : Str → Option Str
  | [] => none
  | c :: rest => if c = ':' then some rest else none

/-- Pattern `^(A sentence like|Something like|Could be|For example|Like
this|Try this|How about):\s*` — try the alternatives left to right; a
successful alternative must be followed by a literal `:`. -/
def stripPat1Alts : List Str → Str → Option Str
  | [], _ => none
  | a :: rest, s =>
    if ciHeadMatch a s then
      match afterColon (s.drop a.length) with
      | some r => some (r.dropWhile isPySpace)
      | none => stripPat1Alts rest s
    else stripPat1Alts rest s

def stripPat1 (s : Str) : Str := (stripPat1Alts pat1Alts s).getD s

/-- Regex `[,:]?` (greedy, nothing after it can fail). -/
def dropPunct : Str → Str
  | [] => []
  | c :: rest => if c = ',' || c = ':' then rest else c :: rest

/-- Pattern `^(So|Could be|For example|Like this|Something like)\b[,:]?\s*`. -/
def stripPat2Alts : List Str → Str → Option Str
  | [], _ => none
  | a :: rest, s =>
    if ciHeadMatch a s && noWordStart (s.drop a.length) then
      some ((dropPunct (s.drop a.length)).dropWhile isPySpace)
    else stripPat2Alts rest s

def stripPat2 (s : Str) : Str := (stripPat2Alts pat2Alts s).getD s

/-- Pattern `^-\s*`. -/
def stripPat3 : Str → Str
  | [] => []
  | c :: rest => if c = '-' then rest.dropWhile isPySpace else c :: rest

/-- Lines 115-122: the three anchored meta-commentary substitutions,
applied in order. -/
def stripMeta (s : Str) : Str := stripPat3 (stripPat2 (stripPat1 s))

/-- Split `s` at its first `"`, excluded; `none` if there is none. -/
def findQuote : Str → Option (Str × Str)
  | [] => none
  | c :: rest =>
    if c = '"' then some ([], rest)
    else
      match findQuote rest with
      | none => none
      | some (a, b) => some (c :: a, b)

/-- Line 124: the quoted-span substitution — drop each matched pair of
double quotes, keeping the span between them. -/
def removeQuoteF : Nat → Str → Str
  | 0, s => s
  | _ + 1, [] => []
  | fuel + 1, c :: rest =>
    if c = '"' then
      match findQuote rest with
      | some (a, b) => a ++ removeQuoteF fuel b
      | none => c :: removeQuoteF fuel rest
    else c :: removeQuoteF fuel rest

def removeQuotePairs (s : Str) : Str := removeQuoteF s.length s

/-- The AI-disclosure phrases of lines 126-129. -/
def aiPhrases : List Str :=
  [ strL "as an AI", strL "I cannot", strL "I apologize", strL "I understand",
    strL "must be a complete sentence", strL "ending properly"]

/-- Python `str.capitalize()`: first character uppercased, rest
lowercased. -/
def capitalizePy : Str → Str
  | [] => []
  | c :: rest => c.toUpper :: toLowerL rest

/-- Lines 131-132: for each phrase, remove its literal and capitalized
forms. -/
def removeAiPhrases (s : Str) : Str :=
  aiPhrases.foldl (fun t p => replaceSub (capitalizePy p) [] (replaceSub p [] t)) s

/-- Python `text.split()`: maximal runs of non-whitespace characters;
`fuel` bounds the scan (each step consumes at least one character). -/
def pyWordsF : Nat → Str → List Str
  | 0, _ => []
  | _ + 1, [] => []
  | fuel + 1, c :: rest =>
    if isPySpace c then pyWordsF fuel rest
    else
      (c :: rest.takeWhile (fun d => !isPySpace d)) ::
        pyWordsF fuel (rest.dropWhile (fun d => !isPySpace d))

def pyWords (s : Str) : List Str := pyWordsF s.length s

/-- Python `' '.join(words)`. -/
def joinWords : List Str → Str
  | [] => []
  | [w] => w
  | w :: w2 :: ws => w ++ ' ' :: joinWords (w2 :: ws)

/-- The strip set of line 135: `' .,;:-'`. -/
def isStripChar (c : Char) : Bool :=
  c = ' ' || c = '.' || c = ',' || c = ';' || c = ':' || c = '-'

/-- `clean_ai_text` (lines 93-137): dash normalization, line filtering,
meta-pattern stripping, quote-pair removal, AI-phrase removal,
whitespace collapse, final strip of `' .,;:-'`. -/
def clean_ai_text (text : Str) : Str :=
  stripP isStripChar
    (joinWords (pyWords
      (removeAiPhrases (removeQuotePairs (stripMeta (selectLine (dashNormalize text)))))))

/-- Python `endswith` on the terminal punctuation marks. -/
def endsTerminal (s : Str) : Bool :=
  match s.getLast? with
  | some '.' => true
  | some '!' => true
  | some '?' => true
  | _ => false

/-- Lines 301-302: `if rashifal_text and not rashifal_text.endswith(('.',
'!', '?')): rashifal_text = rashifal_text.rstrip(',') + '.'`. -/
def add_period (s : Str) : Str :=
  if !s.isEmpty && !endsTerminal s then rstripP (fun c => c = ',') s ++ ['.'] else s

def failMsg : Str := strL "Failed to generate valid horoscope"

/-- Lines 293-311 of `generate_rashifal`: given the extracted
`rashifal_text` (`none` when the meta-commentary extraction produced no
group), clean it, add terminal punctuation, and return it, raising
`Failed to generate valid horoscope` when nothing valid remains. -/
def finalize_completion : Option Str → Except Str Str
  | none => Except.error failMsg
  | some t =>
    let t2 := if t.isEmpty then t else add_period (clean_ai_text t)
    if t2.isEmpty then Except.error failMsg else Except.ok t2

/-- Line 330: uppercase the first character, keep the rest. -/
def capFirst : Str → Str
  | [] => []
  | c :: rest => c.toUpper :: rest

/-- Lines 320-331 of `post_tweet`: re-clean the text; if it already
starts with the romanized sign name use it as is, otherwise capitalize
its first letter and prepend `"<romanized>, "`. -/
def post_tweet_text (romanized : Str) (rashifal : Str) : Str :=
  let r := clean_ai_text rashifal
  if romanized.isPrefixOf r then r
  else romanized ++ strL ", " ++ capFirst r

/-- One zodiac identity record (lines 26-39). -/
structure ZodiacSign where
  nepali : Str
  romanized : Str
  english : Str
  emoji : Str
deriving DecidableEq

/-- The fixed table of twelve identities (lines 26-39). -/
def zodiacSigns : List ZodiacSign :=
  [ ⟨strL "मेष", strL "Meṣa", strL "Aries", strL "♈"⟩,
    ⟨strL "वृषभ", strL "Vṛṣabha", strL "Taurus", strL "♉"⟩,
    ⟨strL "मिथुन", strL "Mithuna", strL "Gemini", strL "♊"⟩,
    ⟨strL "कर्कट", strL "Karkaṭa", strL "Cancer", strL "♋"⟩,
    ⟨strL "सिंह", strL "Siṃha", strL "Leo", strL "♌"⟩,
    ⟨strL "कन्या", strL "Kanyā", strL "Virgo", strL "♍"⟩,
    ⟨strL "तुला", strL "Tulā", strL "Libra", strL "♎"⟩,
    ⟨strL "वृश्चिक", strL "Vṛśchika", strL "Scorpio", strL "♏"⟩,
    ⟨strL "धनु", strL "Dhanu", strL "Sagittarius", strL "♐"⟩,
    ⟨strL "मकर", strL "Makara", strL "Capricorn", strL "♑"⟩,
    ⟨strL "कुम्भ", strL "Kumbha", strL "Aquarius", strL "♒"⟩,
    ⟨strL "मीन", strL "Mīna", strL "Pisces", strL "♓"⟩]

/-- Outcome of one `chat.completions.create` call. -/
inductive ApiResult where
  | ok : Str → ApiResult
  | err : Str → ApiResult
deriving DecidableEq

/-- Outcome of the retry loop of lines 245-281. `rateLimitExhausted`
stands for the raised `Rate limit exceeded, cannot generate horoscope`;
`otherError` for a re-raised non-rate-limit error; `loopFellThrough`
for the (unreachable with `maxRetries = 3`) exit without a completion. -/
inductive GenOutcome where
  | success : Str → GenOutcome
  | rateLimitExhausted : GenOutcome
  | otherError : Str → GenOutcome
  | loopFellThrough : GenOutcome
deriving DecidableEq

/-- Line 271: `"rate limit" in str(api_error).lower()`. -/
def isRateLimit (msg : Str) : Bool := containsSub (strL "rate limit") (toLowerL msg)

def maxRetries : Nat := 3

/-- The `while retry_count < max_retries` loop of lines 245-281.
`attempts i` is the result of the API call made when `retry_count = i`;
the second component of the result accumulates seconds slept
(`time.sleep(60)` between attempts). -/
def retryLoopF (attempts : Nat → ApiResult) : Nat → Nat → Nat → GenOutcome × Nat
  | 0, _, sleeps => (GenOutcome.loopFellThrough, sleeps)
  | fuel + 1, i, sleeps =>
    if i < maxRetries then
      match attempts i with
      | ApiResult.ok s => (GenOutcome.success s, sleeps)
      | ApiResult.err m =>
        if isRateLimit m then
          if i + 1 < maxRetries then retryLoopF attempts fuel (i + 1) (sleeps + 60)
          else (GenOutcome.rateLimitExhausted, sleeps)
        else (GenOutcome.otherError m, sleeps)
    else (GenOutcome.loopFellThrough, sleeps)

/-- The whole retry loop, entered with `retry_count = 0`. -/
def generate_retry (attempts : Nat → ApiResult) : GenOutcome × Nat :=
  retryLoopF attempts maxRetries 0 0

example : clean_ai_text (strL "Leo, trust yourself") = strL "Leo, trust yourself" := by decide

example : clean_ai_text (strL ", So, hello") = strL "So, hello" := by decide

example : clean_ai_text (strL "So, hello") = strL "hello" := by decide

example : clean_ai_text (strL "as an AI") = [] := by decide

example : clean_ai_text (strL "Format: one sentence.\nMe, trust yourself.") = strL "Me, trust yourself" := by decide

example : clean_ai_text (strL "Something like: you need to let go.") = strL "you need to let go" := by decide

example : post_tweet_text (strL "Meṣa") (strL "trust yourself today") = strL "Meṣa, Trust yourself today" := by decide

/-! ### Generic lemmas about the string primitives -/

theorem mem_dropWhile {p : Char → Bool} {l : Str} {c : Char}
    (h : c ∈ l.dropWhile p) : c ∈ l := by
  induction l with
  | nil => simp at h
  | cons x xs ih =>
    rw [List.dropWhile_cons] at h
    by_cases hx : p x = true
    · rw [if_pos hx] at h
      exact List.mem_cons_of_mem x (ih h)
    · rw [if_neg hx] at h
      exact h

theorem head?_dropWhile_not {p : Char → Bool} {l : Str} {c : Char}
    (h : (l.dropWhile p).head? = some c) : p c = false := by
  induction l with
  | nil => simp at h
  | cons x xs ih =>
    rw [List.dropWhile_cons] at h
    by_cases hx : p x = true
    · rw [if_pos hx] at h
      exact ih h
    · rw [if_neg hx] at h
      simp only [List.head?_cons, Option.some.injEq] at h
      subst h
      simpa using hx

theorem dropWhile_suffix_ex (p : Char → Bool) (l : Str) :
    ∃ u, u ++ l.dropWhile p = l := by
  induction l with
  | nil => exact ⟨[], rfl⟩
  | cons x xs ih =>
    by_cases hx : p x
    · obtain ⟨u, hu⟩ := ih
      exact ⟨x :: u, by simp [List.dropWhile_cons, hx, hu]⟩
    · exact ⟨[], by simp [List.dropWhile_cons, hx]⟩

theorem mem_rstripP {p : Char → Bool} {s : Str} {c : Char}
    (h : c ∈ rstripP p s) : c ∈ s := by
  unfold rstripP at h
  rw [List.mem_reverse] at h
  exact List.mem_reverse.1 (mem_dropWhile h)

theorem mem_stripP {p : Char → Bool} {s : Str} {c : Char}
    (h : c ∈ stripP p s) : c ∈ s := by
  unfold stripP lstripP at h
  exact mem_dropWhile (mem_rstripP h)

theorem head?_rstripP {p : Char → Bool} {s : Str} (h : rstripP p s ≠ []) :
    (rstripP p s).head? = s.head? := by
  obtain ⟨u, hu⟩ := dropWhile_suffix_ex p s.reverse
  have hs : s = (s.reverse.dropWhile p).reverse ++ u.reverse := by
    have h2 := congrArg List.reverse hu
    rw [List.reverse_append, List.reverse_reverse] at h2
    exact h2.symm
  unfold rstripP at h ⊢
  cases hd : (s.reverse.dropWhile p).reverse with
  | nil => exact absurd hd h
  | cons y ys =>
    conv_rhs => rw [hs]
    rw [hd]
    simp

theorem getLast?_stripP_not {p : Char → Bool} {s : Str} {c : Char}
    (h : (stripP p s).getLast? = some c) : p c = false := by
  unfold stripP rstripP at h
  rw [List.getLast?_reverse] at h
  exact head?_dropWhile_not h

theorem head?_stripP_not {p : Char → Bool} {s : Str} {c : Char}
    (h : (stripP p s).head? = some c) : p c = false := by
  unfold stripP at h
  have hne : rstripP p (lstripP p s) ≠ [] := by
    intro he
    rw [he] at h
    simp at h
  rw [head?_rstripP hne] at h
  unfold lstripP at h
  exact head?_dropWhile_not h

theorem rstripP_eq_self {p : Char → Bool} {s : Str} {c : Char}
    (hl : s.getLast? = some c) (hc : p c = false) : rstripP p s = s := by
  unfold rstripP
  have hh : s.reverse.head? = some c := by rw [List.head?_reverse]; exact hl
  cases hr : s.reverse with
  | nil => rw [hr] at hh; simp at hh
  | cons y ys =>
    rw [hr] at hh
    simp only [List.head?_cons, Option.some.injEq] at hh
    subst hh
    have hny : ¬ (p y = true) := by simp [hc]
    have hd : List.dropWhile p (y :: ys) = y :: ys := by
      rw [List.dropWhile_cons, if_neg hny]
    calc ((y :: ys).dropWhile p).reverse
        = (y :: ys).reverse := by rw [hd]
      _ = s.reverse.reverse := by rw [hr]
      _ = s := List.reverse_reverse s

/-! ### Membership lemmas for each pipeline stage -/

theorem mem_replaceSubFuel {pat rep : Str} {c : Char} :
    ∀ {fuel : Nat} {s : Str}, c ∈ replaceSubFuel pat rep fuel s → c ∈ rep ∨ c ∈ s := by
  intro fuel
  induction fuel with
  | zero => intro s h; exact Or.inr h
  | succ n ih =>
    intro s h
    cases s with
    | nil => simp [replaceSubFuel] at h
    | cons x rest =>
      rw [replaceSubFuel] at h
      by_cases hp : (pat.isPrefixOf (x :: rest) && !pat.isEmpty) = true
      · rw [if_pos hp] at h
        rcases List.mem_append.1 h with h1 | h2
        · exact Or.inl h1
        · rcases ih h2 with h3 | h4
          · exact Or.inl h3
          · exact Or.inr (List.mem_cons_of_mem x (List.mem_of_mem_drop h4))
      · rw [if_neg hp] at h
        rcases List.mem_cons.1 h with h1 | h2
        · exact Or.inr (h1 ▸ List.mem_cons_self x rest)
        · rcases ih h2 with h3 | h4
          · exact Or.inl h3
          · exact Or.inr (List.mem_cons_of_mem x h4)

theorem mem_replaceSub {pat rep s : Str} {c : Char}
    (h : c ∈ replaceSub pat rep s) : c ∈ rep ∨ c ∈ s :=
  mem_replaceSubFuel h

theorem mem_replaceSubFuel_single {a b c : Char} :
    ∀ {fuel : Nat} {s : Str}, s.length ≤ fuel → c ∈ replaceSubFuel [a] [b] fuel s →
      c = b ∨ (c ∈ s ∧ c ≠ a) := by
  intro fuel
  induction fuel with
  | zero =>
    intro s hl h
    have hs : s = [] := List.length_eq_zero.1 (Nat.le_zero.1 hl)
    subst hs
    simp [replaceSubFuel] at h
  | succ n ih =>
    intro s hl h
    cases s with
    | nil => simp [replaceSubFuel] at h
    | cons x rest =>
      rw [replaceSubFuel] at h
      have hlr : rest.length ≤ n := by
        simpa [Nat.succ_le_succ_iff] using hl
      by_cases hp : ([a].isPrefixOf (x :: rest) && !([a].isEmpty)) = true
      · have hax : a = x := by
          simpa [List.isPrefixOf] using hp
        rw [if_pos hp] at h
        simp only [List.length_cons, List.length_nil, Nat.zero_add, Nat.sub_self,
          List.drop_zero] at h
        rcases List.mem_append.1 h with h1 | h2
        · left
          simpa using h1
        · rcases ih hlr h2 with h3 | ⟨h4, h5⟩
          · exact Or.inl h3
          · exact Or.inr ⟨List.mem_cons_of_mem x h4, h5⟩
      · have hax : ¬ (a = x) := by
          simpa [List.isPrefixOf] using hp
        rw [if_neg hp] at h
        rcases List.mem_cons.1 h with h1 | h2
        · subst h1
          exact Or.inr ⟨List.mem_cons_self c rest, fun he => hax he.symm⟩
        · rcases ih hlr h2 with h3 | ⟨h4, h5⟩
          · exact Or.inl h3
          · exact Or.inr ⟨List.mem_cons_of_mem x h4, h5⟩

theorem mem_dashNormalize {s : Str} {c : Char}
    (h : c ∈ dashNormalize s) : c ≠ '—' ∧ c ≠ '–' := by
  have hEm : strL "—" = ['—'] := rfl
  have hEn : strL "–" = ['–'] := rfl
  have hCo : strL "," = [','] := rfl
  unfold dashNormalize replaceSub at h
  rw [hEm, hEn, hCo] at h
  rcases mem_replaceSubFuel_single (Nat.le_refl _) h with h1 | ⟨h2, h3⟩
  · subst h1
    exact ⟨by decide, by decide⟩
  · rcases mem_replaceSubFuel_single (Nat.le_refl _) h2 with h4 | ⟨_, h6⟩
    · subst h4
      exact ⟨by decide, by decide⟩
    · exact ⟨h6, h3⟩

theorem mem_splitLines {s : Str} {l : Str} {c : Char} :
    l ∈ splitLines s → c ∈ l → c ∈ s := by
  induction s generalizing l with
  | nil =>
    intro hl hc
    simp [splitLines] at hl
    subst hl
    simp at hc
  | cons x rest ih =>
    intro hl hc
    rw [splitLines] at hl
    split at hl
    · simp at hl
      subst hl
      simp at hc
    · rename_i l0 ls hsp
      by_cases hx : x = '\n'
      · rw [if_pos hx] at hl
        rcases List.mem_cons.1 hl with h1 | h2
        · subst h1
          simp at hc
        · exact List.mem_cons_of_mem x (ih (hsp ▸ h2) hc)
      · rw [if_neg hx] at hl
        rcases List.mem_cons.1 hl with h1 | h2
        · subst h1
          rcases List.mem_cons.1 hc with h3 | h4
          · exact h3 ▸ List.mem_cons_self x rest
          · have hmem : l0 ∈ splitLines rest := hsp ▸ List.mem_cons_self l0 ls
            exact List.mem_cons_of_mem x (ih hmem h4)
        · have hmem : l ∈ splitLines rest := hsp ▸ List.mem_cons_of_mem l0 h2
          exact List.mem_cons_of_mem x (ih hmem hc)

theorem mem_selectLine {t : Str} {c : Char} (h : c ∈ selectLine t) : c ∈ t := by
  unfold selectLine at h
  cases hf : ((splitLines t).map (stripP isPySpace)).filter
      (fun l => !hasInstructionKeyword l && !l.isEmpty) with
  | nil =>
    rw [hf] at h
    exact h
  | cons l ls =>
    rw [hf] at h
    have hl : l ∈ (splitLines t).map (stripP isPySpace) :=
      List.mem_of_mem_filter (hf ▸ List.mem_cons_self l ls)
    obtain ⟨l0, hl0, hleq⟩ := List.mem_map.1 hl
    exact mem_splitLines hl0 (mem_stripP (hleq ▸ h))

theorem mem_dropPunct {u : Str} {c : Char} (h : c ∈ dropPunct u) : c ∈ u := by
  cases u with
  | nil => simp [dropPunct] at h
  | cons x rest =>
    rw [dropPunct] at h
    by_cases hx : (x = ',' || x = ':') = true
    · rw [if_pos hx] at h
      exact List.mem_cons_of_mem x h
    · rw [if_neg hx] at h
      exact h

theorem mem_stripPat1Alts {alts : List Str} {s t : Str} {c : Char} :
    stripPat1Alts alts s = some t → c ∈ t → c ∈ s := by
  induction alts with
  | nil => intro h; simp [stripPat1Alts] at h
  | cons a rest ih =>
    intro h hc
    rw [stripPat1Alts] at h
    by_cases hm : ciHeadMatch a s = true
    · rw [if_pos hm] at h
      cases hac : afterColon (s.drop a.length) with
      | none =>
        rw [hac] at h
        exact ih h hc
      | some r =>
        rw [hac] at h
        simp only [Option.some.injEq] at h
        subst h
        have hr : c ∈ r := mem_dropWhile hc
        have h2 : c ∈ s.drop a.length := by
          cases hs : s.drop a.length with
          | nil => rw [hs] at hac; simp [afterColon] at hac
          | cons y ys =>
            rw [hs] at hac
            rw [afterColon] at hac
            by_cases hy : y = ':'
            · rw [if_pos hy] at hac
              simp only [Option.some.injEq] at hac
              subst hac
              exact List.mem_cons_of_mem y hr
            · rw [if_neg hy] at hac
              exact absurd hac (by simp)
        exact List.mem_of_mem_drop h2
    · rw [if_neg hm] at h
      exact ih h hc

theorem mem_stripPat1 {s : Str} {c : Char} (h : c ∈ stripPat1 s) : c ∈ s := by
  unfold stripPat1 at h
  cases ho : stripPat1Alts pat1Alts s with
  | none =>
    rw [ho] at h
    exact h
  | some t =>
    rw [ho] at h
    exact mem_stripPat1Alts ho h

theorem mem_stripPat2Alts {alts : List Str} {s t : Str} {c : Char} :
    stripPat2Alts alts s = some t → c ∈ t → c ∈ s := by
  induction alts with
  | nil => intro h; simp [stripPat2Alts] at h
  | cons a rest ih =>
    intro h hc
    rw [stripPat2Alts] at h
    by_cases hm : (ciHeadMatch a s && noWordStart (s.drop a.length)) = true
    · rw [if_pos hm] at h
      simp only [Option.some.injEq] at h
      subst h
      exact List.mem_of_mem_drop (mem_dropPunct (mem_dropWhile hc))
    · rw [if_neg hm] at h
      exact ih h hc

theorem mem_stripPat2 {s : Str} {c : Char} (h : c ∈ stripPat2 s) : c ∈ s := by
  unfold stripPat2 at h
  cases ho : stripPat2Alts pat2Alts s with
  | none =>
    rw [ho] at h
    exact h
  | some t =>
    rw [ho] at h
    exact mem_stripPat2Alts ho h

theorem mem_stripPat3 {s : Str} {c : Char} (h : c ∈ stripPat3 s) : c ∈ s := by
  cases s with
  | nil => simp [stripPat3] at h
  | cons x rest =>
    rw [stripPat3] at h
    by_cases hx : x = '-'
    · rw [if_pos hx] at h
      exact List.mem_cons_of_mem x (mem_dropWhile h)
    · rw [if_neg hx] at h
      exact h

theorem mem_stripMeta {s : Str} {c : Char} (h : c ∈ stripMeta s) : c ∈ s := by
  unfold stripMeta at h
  exact mem_stripPat1 (mem_stripPat2 (mem_stripPat3 h))

theorem mem_findQuote {s a b : Str} {c : Char} :
    findQuote s = some (a, b) → c ∈ a ∨ c ∈ b → c ∈ s := by
  induction s generalizing a b with
  | nil => intro h; simp [findQuote] at h
  | cons x rest ih =>
    intro h hc
    rw [findQuote] at h
    by_cases hx : x = '"'
    · rw [if_pos hx] at h
      simp only [Option.some.injEq, Prod.mk.injEq] at h
      obtain ⟨ha, hb⟩ := h
      subst ha
      subst hb
      rcases hc with h1 | h2
      · simp at h1
      · exact List.mem_cons_of_mem x h2
    · rw [if_neg hx] at h
      cases hf : findQuote rest with
      | none =>
        rw [hf] at h
        simp at h
      | some p =>
        obtain ⟨a0, b0⟩ := p
        rw [hf] at h
        simp only [Option.some.injEq, Prod.mk.injEq] at h
        obtain ⟨ha, hb⟩ := h
        subst ha
        subst hb
        rcases hc with h1 | h2
        · rcases List.mem_cons.1 h1 with h3 | h4
          · exact h3 ▸ List.mem_cons_self x rest
          · exact List.mem_cons_of_mem x (ih hf (Or.inl h4))
        · exact List.mem_cons_of_mem x (ih hf (Or.inr h2))

theorem mem_removeQuoteF {c : Char} :
    ∀ {fuel : Nat} {s : Str}, c ∈ removeQuoteF fuel s → c ∈ s := by
  intro fuel
  induction fuel with
  | zero => intro s h; exact h
  | succ n ih =>
    intro s h
    cases s with
    | nil => simp [removeQuoteF] at h
    | cons x rest =>
      rw [removeQuoteF] at h
      by_cases hx : x = '"'
      · rw [if_pos hx] at h
        cases hf : findQuote rest with
        | none =>
          rw [hf] at h
          rcases List.mem_cons.1 h with h1 | h2
          · exact h1 ▸ List.mem_cons_self x rest
          · exact List.mem_cons_of_mem x (ih h2)
        | some p =>
          obtain ⟨a0, b0⟩ := p
          rw [hf] at h
          rcases List.mem_append.1 h with h1 | h2
          · exact List.mem_cons_of_mem x (mem_findQuote hf (Or.inl h1))
          · exact List.mem_cons_of_mem x (mem_findQuote hf (Or.inr (ih h2)))
      · rw [if_neg hx] at h
        rcases List.mem_cons.1 h with h1 | h2
        · exact h1 ▸ List.mem_cons_self x rest
        · exact List.mem_cons_of_mem x (ih h2)

theorem mem_removeQuotePairs {s : Str} {c : Char}
    (h : c ∈ removeQuotePairs s) : c ∈ s :=
  mem_removeQuoteF h

theorem mem_foldl_replace {c : Char} :
    ∀ {ps : List Str} {s : Str},
      c ∈ ps.foldl (fun t p => replaceSub (capitalizePy p) [] (replaceSub p [] t)) s →
      c ∈ s := by
  intro ps
  induction ps with
  | nil => intro s h; exact h
  | cons p ps ih =>
    intro s h
    rw [List.foldl_cons] at h
    have h2 := ih h
    rcases mem_replaceSub h2 with h3 | h4
    · simp at h3
    · rcases mem_replaceSub h4 with h5 | h6
      · simp at h5
      · exact h6

theorem mem_removeAiPhrases {s : Str} {c : Char}
    (h : c ∈ removeAiPhrases s) : c ∈ s := by
  unfold removeAiPhrases at h
  exact mem_foldl_replace h

theorem pyWordsF_props {c : Char} :
    ∀ {fuel : Nat} {s : Str} {w : Str}, w ∈ pyWordsF fuel s → c ∈ w →
      c ∈ s ∧ isPySpace c = false := by
  intro fuel
  induction fuel with
  | zero => intro s w hw; simp [pyWordsF] at hw
  | succ n ih =>
    intro s w hw hc
    cases s with
    | nil => simp [pyWordsF] at hw
    | cons x rest =>
      rw [pyWordsF] at hw
      by_cases hx : isPySpace x = true
      · rw [if_pos hx] at hw
        obtain ⟨h1, h2⟩ := ih hw hc
        exact ⟨List.mem_cons_of_mem x h1, h2⟩
      · rw [if_neg hx] at hw
        rcases List.mem_cons.1 hw with h1 | h2
        · subst h1
          rcases List.mem_cons.1 hc with h3 | h4
          · subst h3
            exact ⟨List.mem_cons_self c rest, by simpa using hx⟩
          · have h5 : c ∈ rest :=
              (List.takeWhile_prefix (fun d => !isPySpace d)).subset h4
            have h6 := List.mem_takeWhile_imp h4
            refine ⟨List.mem_cons_of_mem x h5, ?_⟩
            simpa using h6
        · obtain ⟨h1, h2⟩ := ih h2 hc
          exact ⟨List.mem_cons_of_mem x (mem_dropWhile h1), h2⟩

theorem pyWords_props {s : Str} {w : Str} {c : Char}
    (hw : w ∈ pyWords s) (hc : c ∈ w) : c ∈ s ∧ isPySpace c = false :=
  pyWordsF_props hw hc

theorem mem_joinWords {ws : List Str} {c : Char} :
    c ∈ joinWords ws → c = ' ' ∨ ∃ w ∈ ws, c ∈ w := by
  induction ws with
  | nil => intro h; simp [joinWords] at h
  | cons w ws ih =>
    intro h
    cases ws with
    | nil =>
      rw [joinWords] at h
      exact Or.inr ⟨w, List.mem_cons_self w [], h⟩
    | cons w2 ws2 =>
      rw [joinWords] at h
      rcases List.mem_append.1 h with h1 | h2
      · exact Or.inr ⟨w, List.mem_cons_self w _, h1⟩
      · rcases List.mem_cons.1 h2 with h3 | h4
        · exact Or.inl h3
        · rcases ih h4 with h5 | ⟨w3, hw3, hc3⟩
          · exact Or.inl h5
          · exact Or.inr ⟨w3, List.mem_cons_of_mem w hw3, hc3⟩

/-- Master membership lemma: every character of the Normalizer output
is a space introduced by the join, or a non-whitespace character of the
dash-normalized input. -/
theorem mem_clean_ai_text {s : Str} {c : Char} (h : c ∈ clean_ai_text s) :
    c = ' ' ∨ (isPySpace c = false ∧ c ∈ dashNormalize s) := by
  unfold clean_ai_text at h
  have h1 := mem_stripP h
  rcases mem_joinWords h1 with h2 | ⟨w, hw, hc⟩
  · exact Or.inl h2
  · obtain ⟨h3, h4⟩ := pyWords_props hw hc
    exact Or.inr ⟨h4, mem_selectLine (mem_stripMeta (mem_removeQuotePairs (mem_removeAiPhrases h3)))⟩

theorem clean_ai_text_getLast_not {s : Str} {c : Char}
    (h : (clean_ai_text s).getLast? = some c) : isStripChar c = false := by
  unfold clean_ai_text at h
  exact getLast?_stripP_not h

theorem clean_ai_text_head_not {s : Str} {c : Char}
    (h : (clean_ai_text s).head? = some c) : isStripChar c = false := by
  unfold clean_ai_text at h
  exact head?_stripP_not h

theorem capFirst_length (s : Str) : (capFirst s).length = s.length := by
  cases s <;> simp [capFirst]

/-! ### The claims -/

/-- Claim C1, counterexample: `clean_ai_text` performs no identity-name
substitution at all. On the input `"Leo, trust yourself"` the output
still contains the English name `Leo` (case-insensitively) and does not
contain the romanized name `Siṃha`, contradicting the claim that the
output has zero occurrences of the English name with the romanized name
in its place. -/
theorem c1_counterexample :
    containsSub (strL "leo") (toLowerL (clean_ai_text (strL "Leo, trust yourself"))) = true ∧
    containsSub (strL "Siṃha") (clean_ai_text (strL "Leo, trust yourself")) = false := by
  constructor
  · decide
  · decide

/-- Claim C1, amended: `clean_ai_text` does not substitute English
identity names with romanized names; for every identity of the fixed
table, an input built from its English name passes through the
Normalizer still containing the English name (case-insensitively) and
never acquires the romanized name. -/
theorem c1_no_substitution (sgn : ZodiacSign) (h : sgn ∈ zodiacSigns) :
    containsSub (toLowerL sgn.english)
        (toLowerL (clean_ai_text (sgn.english ++ strL ", trust yourself"))) = true ∧
    containsSub sgn.romanized
        (clean_ai_text (sgn.english ++ strL ", trust yourself")) = false := by
  fin_cases h <;> exact ⟨by decide, by decide⟩

/-- Witness for the amended C1 theorem at the Leo / Siṃha identity. -/
theorem c1_no_substitution_witness :
    containsSub (toLowerL (strL "Leo"))
        (toLowerL (clean_ai_text (strL "Leo" ++ strL ", trust yourself"))) = true ∧
    containsSub (strL "Siṃha")
        (clean_ai_text (strL "Leo" ++ strL ", trust yourself")) = false :=
  c1_no_substitution ⟨strL "सिंह", strL "Siṃha", strL "Leo", strL "♌"⟩ (by decide)

/-- Claim C3, counterexample: for the scenario given in the claim the final
post carries no trailing period (`post_tweet` appends nothing), and the
submitted text need not continue with `", "` after the romanized name
when the cleaned text already starts with that name. -/
theorem c3_counterexample :
    post_tweet_text (strL "Meṣa") (strL "trust yourself today") ≠
      strL "Meṣa, Trust yourself today." ∧
    (strL "Meṣa, ").isPrefixOf (post_tweet_text (strL "Meṣa") (strL "Meṣaxyz")) = false := by
  constructor
  · decide
  · decide

/-- Claim C3, amended: `post_tweet` submits text that begins with the
romanized name of the identity; when the cleaned text does not already start
with the name, the prefix `"<romanized>, "` is inserted and the first
letter of the remainder capitalized, but no terminal period is added:
cleaned text `"trust yourself today"` for Meṣa yields the final post
`"Meṣa, Trust yourself today"` (without a period). -/
theorem c3_prefix (romanized r : Str) :
    romanized.isPrefixOf (post_tweet_text romanized r) = true ∧
    post_tweet_text (strL "Meṣa") (strL "trust yourself today") =
      strL "Meṣa, Trust yourself today" := by
  constructor
  · unfold post_tweet_text
    by_cases hp : romanized.isPrefixOf (clean_ai_text r) = true
    · rw [if_pos hp]
      exact hp
    · rw [if_neg hp]
      rw [List.isPrefixOf_iff_prefix]
      exact ⟨strL ", " ++ capFirst (clean_ai_text r), by simp⟩
  · decide

/-- Claim C5: if the cleaned completion is empty, `generate_rashifal`
raises `Failed to generate valid horoscope` instead of returning an
empty post. -/
theorem c5_empty_raises (t : Str) (h : clean_ai_text t = []) :
    finalize_completion (some t) = Except.error failMsg := by
  unfold finalize_completion
  by_cases ht : t.isEmpty = true
  · simp [ht]
  · simp [ht, h, add_period]

/-- Witness for C5 at the input `"."`, which cleans to the empty
string. -/
theorem c5_empty_raises_witness :
    finalize_completion (some (strL ".")) = Except.error failMsg :=
  c5_empty_raises (strL ".") (by decide)

/-- Claim C6, counterexample: `clean_ai_text` is not idempotent. On
`", So, hello"` the first pass strips the leading punctuation, exposing
the meta-commentary prefix `"So, "`, which only the second pass
removes. -/
theorem c6_counterexample :
    clean_ai_text (clean_ai_text (strL ", So, hello")) ≠
      clean_ai_text (strL ", So, hello") := by
  decide

/-- Claim C6, amended: `clean_ai_text` is not idempotent in general (the
final punctuation strip can expose a leading meta-commentary phrase that
a second pass removes), but the terminal-punctuation step of
`generate_rashifal` never appends a second punctuation mark to text that
already ends in `.`, `!` or `?`. -/
theorem c6_no_double_append (s : Str) (h : endsTerminal s = true) :
    add_period s = s := by
  simp [add_period, h]

/-- Witness for the amended C6 theorem on text already ending in a
period. -/
theorem c6_no_double_append_witness :
    add_period (strL "Done.") = strL "Done." :=
  c6_no_double_append (strL "Done.") (by decide)

/-- Claim C2, counterexample: `generate_rashifal` appends the period,
but `post_tweet` re-cleans the text with `clean_ai_text`, which strips a
trailing `.`; for the cleaned completion `"trust yourself"` the text
finally published is `"Meṣa, Trust yourself"`, which ends in none of
`.`, `!`, `?`. -/
theorem c2_counterexample :
    endsTerminal (post_tweet_text (strL "Meṣa")
      (add_period (clean_ai_text (strL "trust yourself")))) = false := by
  decide

/-- Claim C2, amended: within `generate_rashifal`, if the cleaned text
is non-empty, the punctuation step yields text ending in `.`, `!` or `?`
whose last two characters are neither `..` nor `,.`; the published text,
however, is re-cleaned by `post_tweet` and can lose the appended
period. -/
theorem c2_terminal_punctuation (s : Str) (h : clean_ai_text s ≠ []) :
    endsTerminal (add_period (clean_ai_text s)) = true ∧
    (add_period (clean_ai_text s)).reverse.take 2 ≠ strL ".." ∧
    (add_period (clean_ai_text s)).reverse.take 2 ≠ strL ".," := by
  rw [show strL ".." = ['.', '.'] from rfl, show strL ".," = ['.', ','] from rfl]
  have hrevne : (clean_ai_text s).reverse ≠ [] := by
    simpa using h
  obtain ⟨c, w, hw⟩ : ∃ c w, (clean_ai_text s).reverse = c :: w := by
    cases hr : (clean_ai_text s).reverse with
    | nil => exact absurd hr hrevne
    | cons c w => exact ⟨c, w, rfl⟩
  have hlast : (clean_ai_text s).getLast? = some c := by
    rw [← List.head?_reverse, hw]
    rfl
  have hcs : isStripChar c = false := clean_ai_text_getLast_not hlast
  have hcdot : c ≠ '.' := by
    intro he
    subst he
    simp [isStripChar] at hcs
  have hccomma : c ≠ ',' := by
    intro he
    subst he
    simp [isStripChar] at hcs
  by_cases hterm : endsTerminal (clean_ai_text s) = true
  · have hap : add_period (clean_ai_text s) = clean_ai_text s := by
      simp [add_period, hterm]
    refine ⟨by rw [hap]; exact hterm, ?_, ?_⟩
    · rw [hap, hw]
      cases w with
      | nil => simp
      | cons d w2 =>
        simp only [List.take, ne_eq, List.cons.injEq, not_and]
        intro he
        exact absurd he hcdot
    · rw [hap, hw]
      cases w with
      | nil => simp
      | cons d w2 =>
        simp only [List.take, ne_eq, List.cons.injEq, not_and]
        intro he
        exact absurd he hcdot
  · have hie : (clean_ai_text s).isEmpty = false := by
      cases hcc : clean_ai_text s with
      | nil => exact absurd hcc h
      | cons a l => rfl
    have hte : endsTerminal (clean_ai_text s) = false := by
      cases hb : endsTerminal (clean_ai_text s)
      · rfl
      · exact absurd hb hterm
    have hrs : rstripP (fun x => x = ',') (clean_ai_text s) = clean_ai_text s :=
      rstripP_eq_self hlast (decide_eq_false hccomma)
    have hap : add_period (clean_ai_text s) = clean_ai_text s ++ ['.'] := by
      simp [add_period, hie, hte, hrs]
    refine ⟨?_, ?_, ?_⟩
    · rw [hap]
      unfold endsTerminal
      rw [List.getLast?_concat]
      rfl
    · rw [hap, List.reverse_append, hw]
      simp only [List.reverse_cons, List.reverse_nil, List.nil_append, List.singleton_append,
        List.take, ne_eq, List.cons.injEq, not_and]
      intro _ he
      exact absurd he hcdot
    · rw [hap, List.reverse_append, hw]
      simp only [List.reverse_cons, List.reverse_nil, List.nil_append, List.singleton_append,
        List.take, ne_eq, List.cons.injEq, not_and]
      intro _ he
      exact absurd he hccomma

/-- Witness for the amended C2 theorem at `"trust yourself"`. -/
theorem c2_terminal_punctuation_witness :
    endsTerminal (add_period (clean_ai_text (strL "trust yourself"))) = true ∧
    (add_period (clean_ai_text (strL "trust yourself"))).reverse.take 2 ≠ strL ".." ∧
    (add_period (clean_ai_text (strL "trust yourself"))).reverse.take 2 ≠ strL ".," :=
  c2_terminal_punctuation (strL "trust yourself") (by decide)

/-- Claim C7, counterexample: the output can be empty for an input that
no discard keyword matches — the AI-disclosure phrase `"as an AI"`
survives the keyword line filter yet cleans to the empty string. -/
theorem c7_counterexample :
    hasInstructionKeyword (strL "as an AI") = false ∧
    clean_ai_text (strL "as an AI") = [] := by
  constructor
  · decide
  · decide

/-- Claim C7, amended: for every input, the output of `clean_ai_text`
contains no literal newline character (the whitespace-collapse step
replaces every whitespace run by a single space); the output can be
empty even when no discard keyword matches the input. -/
theorem c7_no_newline (s : Str) :
    (clean_ai_text s).all (fun c => c != '\n') = true := by
  rw [List.all_eq_true]
  intro x hx
  rcases mem_clean_ai_text hx with h1 | ⟨h2, _⟩
  · subst h1
    decide
  · have hne : x ≠ '\n' := by
      intro he
      subst he
      simp [isPySpace] at h2
    simpa using hne

/-- Claim C8, counterexample: a spaced hyphen is not replaced by a
comma — `clean_ai_text "a - b"` still contains `-`. -/
theorem c8_counterexample :
    (clean_ai_text (strL "a - b")).contains '-' = true := by
  decide

/-- Claim C8, amended: `clean_ai_text` replaces every em-dash and
en-dash with a comma, so its output contains neither; spaced hyphens are
not replaced and may remain. -/
theorem c8_no_dashes (s : Str) :
    (clean_ai_text s).all (fun c => c != '—' && c != '–') = true := by
  rw [List.all_eq_true]
  intro x hx
  rcases mem_clean_ai_text hx with h1 | ⟨_, h3⟩
  · subst h1
    decide
  · obtain ⟨hm, hn⟩ := mem_dashNormalize h3
    simp [hm, hn]

set_option maxRecDepth 8192 in
/-- Claim C9, counterexample: `post_tweet` enforces no length bound; a
300-character cleaned text is submitted as a post longer than 280
characters. -/
theorem c9_counterexample :
    280 < (post_tweet_text (strL "Meṣa") (List.replicate 300 'a')).length := by
  decide

/-- Claim C9, amended: `post_tweet` performs no truncation or length
check; when the name prefix is inserted, the length of the submitted
text is exactly the length of the romanized name plus 2 plus the length
of the cleaned text, and can exceed 280 characters. -/
theorem c9_no_truncation (romanized r : Str)
    (h : romanized.isPrefixOf (clean_ai_text r) = false) :
    (post_tweet_text romanized r).length =
      romanized.length + 2 + (clean_ai_text r).length := by
  simp only [post_tweet_text, h, Bool.false_eq_true, if_false, List.length_append,
    capFirst_length]
  rw [show List.length (strL ", ") = 2 from rfl]

set_option maxRecDepth 8192 in
/-- Witness for the amended C9 theorem: a 300-character input yields a
306-character post. -/
theorem c9_no_truncation_witness :
    (post_tweet_text (strL "Meṣa") (List.replicate 300 'a')).length =
      (strL "Meṣa").length + 2 + (clean_ai_text (List.replicate 300 'a')).length :=
  c9_no_truncation (strL "Meṣa") (List.replicate 300 'a') (by decide)

/-- Claim C10: whenever `clean_ai_text` returns a non-empty result, its
first and last characters are outside the strip set
`{' ', '.', ',', ';', ':', '-'}`; in particular a terminal period of the
input never survives at the end of the output. -/
theorem c10_boundary_chars (s : Str) (_h : clean_ai_text s ≠ []) :
    (∀ c, (clean_ai_text s).head? = some c → isStripChar c = false) ∧
    (∀ c, (clean_ai_text s).getLast? = some c → isStripChar c = false) :=
  ⟨fun _ hc => clean_ai_text_head_not hc, fun _ hc => clean_ai_text_getLast_not hc⟩

/-- Witness for C10 at `"Hello world."`: the cleaned text is
`"Hello world"`, whose first character `H` and last character `d` are
outside the strip set. -/
theorem c10_boundary_chars_witness :
    isStripChar 'H' = false ∧ isStripChar 'd' = false :=
  ⟨(c10_boundary_chars (strL "Hello world.") (by decide)).1 'H' (by decide),
   (c10_boundary_chars (strL "Hello world.") (by decide)).2 'd' (by decide)⟩

/-- Claim C4: the generation retry loop retries only on errors whose
text contains `"rate limit"` (case-insensitively), sleeping a fixed 60
seconds between attempts, with at most `maxRetries = 3` attempts: a
non-rate-limit error on the first attempt propagates immediately with no
sleep; three rate-limit errors exhaust the retries (two 60-second sleeps)
and produce the distinct rate-limit-exhausted failure; a rate-limit
error followed by a success returns the completion after one sleep. -/
theorem c4_retry_policy (attempts : Nat → ApiResult) :
    (∀ m, attempts 0 = ApiResult.err m → isRateLimit m = false →
      generate_retry attempts = (GenOutcome.otherError m, 0)) ∧
    (∀ m0 m1 m2, attempts 0 = ApiResult.err m0 → isRateLimit m0 = true →
      attempts 1 = ApiResult.err m1 → isRateLimit m1 = true →
      attempts 2 = ApiResult.err m2 → isRateLimit m2 = true →
      generate_retry attempts = (GenOutcome.rateLimitExhausted, 120)) ∧
    (∀ m s, attempts 0 = ApiResult.err m → isRateLimit m = true →
      attempts 1 = ApiResult.ok s →
      generate_retry attempts = (GenOutcome.success s, 60)) := by
  refine ⟨?_, ?_, ?_⟩
  · intro m h0 hr
    simp [generate_retry, maxRetries, retryLoopF, h0, hr]
  · intro m0 m1 m2 h0 hr0 h1 hr1 h2 hr2
    simp [generate_retry, maxRetries, retryLoopF, h0, hr0, h1, hr1, h2, hr2]
  · intro m s h0 hr h1
    simp [generate_retry, maxRetries, retryLoopF, h0, hr, h1]

/-- Witness for C4: three attempts all failing with
`"Rate limit reached"` exhaust the retries after 120 seconds of
sleeping. -/
theorem c4_retry_policy_witness :
    generate_retry (fun _ => ApiResult.err (strL "Rate limit reached")) =
      (GenOutcome.rateLimitExhausted, 120) :=
  (c4_retry_policy (fun _ => ApiResult.err (strL "Rate limit reached"))).2.1
    (strL "Rate limit reached") (strL "Rate limit reached") (strL "Rate limit reached")
    rfl (by decide) rfl (by decide) rfl (by decide)

end Rashifal
